import Mathlib

/-!
Shallow embedding of the station-resolution and trip-ranking core of the
`poke-mcp-server` repository (file `src/tools/ns.py`).

The Python code talks to the NS REST API over HTTP.  Every network
interaction is modelled by an explicit environment value describing what
the remote endpoint would answer; exceptions, non-2xx statuses and
malformed bodies are collapsed into explicit constructors.  Python floats
(the difflib similarity ratio and the 0.6 cutoff) are modelled as exact
rationals.  Python strings are modelled as Lean strings restricted to the
ASCII behaviour of `str.strip`, `str.lower`, `str.isdigit`, `str.isupper`.
-/

namespace NS

/-- Python `str.isdigit` (ASCII fragment): non-empty and every character a
decimal digit. -/
def pyIsDigit (s : String) : Bool :=
  decide (s.length ≠ 0) && s.toList.all Char.isDigit

/-- Python `str.isupper` (ASCII fragment): at least one cased character and
no lower-case cased character. -/
def pyIsUpper (s : String) : Bool :=
  s.toList.any (fun c => c.isUpper || c.isLower) && s.toList.all (fun c => !c.isLower)

/-- Python `str.strip` (ASCII whitespace fragment): drop whitespace from
both ends. -/
def pyStrip (s : String) : String :=
  String.mk (((s.toList.dropWhile Char.isWhitespace).reverse.dropWhile
    Char.isWhitespace).reverse)

/-- Python `str.lower` (ASCII fragment). -/
def pyLower (s : String) : String :=
  String.mk (s.toList.map Char.toLower)

/-- The `namen` object of a station record; absent or null/non-string
fields are `none`. -/
structure StationNames where
  lang : Option String
  middel : Option String
  kort : Option String
deriving DecidableEq, Repr

/-- One station record as returned by the NS stations endpoint.
`code` is `none` when the `code` key is missing; `synoniemen` defaults to
`[]` when missing, matching pattern `s.get("synoniemen", [])`. -/
structure StationRecord where
  code : Option String
  namen : StationNames
  synoniemen : List String
deriving DecidableEq, Repr

/-- Outcome of one GET against the stations endpoint, as seen by the code
after `raise_for_status` and `response.json()`:
`netError` is any raised exception (transport failure, timeout, non-2xx
status, JSON decode failure, missing API key); `nonList` is a 2xx body
whose unwrapped payload is not a (truthy) list; `list rs` is a payload
that is a list of records. -/
inductive SearchResponse where
  | netError
  | nonList
  | list (records : List StationRecord)
deriving DecidableEq, Repr

/-- The remote world a single `resolve_station_code` call can observe:
the answer to the `q=<query>&limit=1` search and the answer to the
full-directory fetch. -/
structure Env where
  search : SearchResponse
  full : SearchResponse
deriving DecidableEq, Repr

/-- A Python dict from lower-cased station labels to the `code` field of
the record that inserted them, modelled as an insertion-ordered
association list: assigning to an existing key overwrites in place,
assigning a fresh key appends. -/
def dictInsert (d : List (String × Option String)) (k : String) (v : Option String) :
    List (String × Option String) :=
  if d.any (fun p => p.1 = k) then
    d.map (fun p => if p.1 = k then (k, v) else p)
  else
    d ++ [(k, v)]

/-- Python `key in dict` / `dict[key]` combined: `some v` when the key is
present with value `v`. -/
def dictFind (d : List (String × Option String)) (k : String) : Option (Option String) :=
  (d.find? (fun p => p.1 = k)).map (fun p => p.2)

/-- Keys of the dict in iteration (= insertion) order, Python
`dict.keys()`. -/
def dictKeys (d : List (String × Option String)) : List String :=
  d.map (fun p => p.1)

/-- One conditional name insertion, pattern
`if names.get(f): station_map[names.get(f).lower()] = code`: insert only
a present, truthy (non-empty) name. -/
def nameInsert (d : List (String × Option String)) (nm : Option String)
    (code : Option String) : List (String × Option String) :=
  match nm with
  | some n => if n ≠ "" then dictInsert d (pyLower n) code else d
  | none => d

/-- Inserting one station record into the local search index: the `lang`,
`middel`, `kort` names (each only when present and truthy, i.e. a
non-empty string) and then every synonym, all lower-cased, mapped to the
`code` field of the record. -/
def insertRecord (d : List (String × Option String)) (s : StationRecord) :
    List (String × Option String) :=
  s.synoniemen.foldl (fun d syn => dictInsert d (pyLower syn) s.code)
    (nameInsert (nameInsert (nameInsert d s.namen.lang s.code)
      s.namen.middel s.code) s.namen.kort s.code)

/-- The `station_map` built by the local fallback from the full station
list. -/
def buildStationMap (rs : List StationRecord) : List (String × Option String) :=
  rs.foldl insertRecord []

/-! ### difflib

`difflib.get_close_matches(word, keys, n=1, cutoff=0.6)` with its default
`SequenceMatcher(None, ...)`: no junk elements (all keys are far below the
200-element autojunk bound in practice; junk never triggers for the key
material used here, so the matcher degenerates to longest-common-substring
recursion).  `ratio()` is `2*M/T` where `M` is the total size of the
matching blocks and `T` the sum of the lengths. -/

/-- Length of the common run at the heads of the two lists. -/
def commonRunLen : List Char → List Char → Nat
  | x :: xs, y :: ys => if x = y then commonRunLen xs ys + 1 else 0
  | _, _ => 0

/-- `SequenceMatcher.find_longest_match` over the whole sequences with no
junk: the triple `(i, j, k)` with `a[i:i+k] = b[j:j+k]`, `k` maximal, and
ties broken towards the lexicographically least `(i, j)` (which is what
the incremental dictionary scan of difflib computes). -/
def findLongestMatch (a b : List Char) : Nat × Nat × Nat :=
  (List.range a.length).foldl (fun best i =>
    (List.range b.length).foldl (fun best j =>
      let k := commonRunLen (a.drop i) (b.drop j)
      if best.2.2 < k then (i, j, k) else best) best) (0, 0, 0)

/-- Total size `M` of the matching blocks of `get_matching_blocks`: the
longest match splits both sequences and the two sides are matched
recursively.  `fuel` bounds the recursion depth; `a.length + b.length`
always suffices because each recursive call strictly shrinks the total
length. -/
def matchTotalAux : Nat → List Char → List Char → Nat
  | 0, _, _ => 0
  | fuel + 1, a, b =>
    let r := findLongestMatch a b
    if r.2.2 = 0 then 0
    else
      r.2.2 + matchTotalAux fuel (a.take r.1) (b.take r.2.1)
        + matchTotalAux fuel (a.drop (r.1 + r.2.2)) (b.drop (r.2.1 + r.2.2))

/-- Total matched size `M` between two strings. -/
def matchTotal (a b : List Char) : Nat :=
  matchTotalAux (a.length + b.length) a b

/-- `SequenceMatcher.ratio()` with `seq1 = a`, `seq2 = b`, as the exact
rational `2M/T` (`1` when both strings are empty, as in
`_calculate_ratio`). -/
def ratioOf (a b : String) : Rat :=
  let t := a.toList.length + b.toList.length
  if t = 0 then 1 else (2 * matchTotal a.toList b.toList : Rat) / (t : Rat)

/-- `difflib.get_close_matches(word, possibilities, n=1, cutoff)` reduced
to its single best result: keep the possibilities whose ratio against
`word` reaches the cutoff (the staged `real_quick_ratio` and
`quick_ratio` tests are upper bounds of `ratio`, so the final set is the
same), then take the maximum of the `(ratio, possibility)` pairs —
`heapq.nlargest` compares the tuples, so equal ratios are broken towards
the lexicographically larger string. -/
def bestStep (word : String) (best : Option String) (x : String) : Option String :=
  match best with
  | none => some x
  | some b =>
    if ratioOf b word < ratioOf x word ∨
        (ratioOf b word = ratioOf x word ∧ b < x) then some x else some b

/-- The maximum of the `(ratio, possibility)` pairs over the candidate
list, i.e. the single element of `heapq.nlargest(1, result)`. -/
def getCloseMatchesBest (word : String) (poss : List String) (cutoff : Rat) :
    Option String :=
  (poss.filter (fun x => cutoff ≤ ratioOf x word)).foldl (bestStep word) none

/-! ### The resolver -/

/-- Strategy 2, API search: `some c` exactly when the unwrapped payload is
a non-empty list, in which case resolution ends with
`results[0].get("code")` (which is itself optional); `none` means the
strategy fell through (exception, non-2xx, non-list payload or empty
list). -/
def searchStep : SearchResponse → Option (Option String)
  | .list (r :: _) => some r.code
  | _ => none

/-- Strategy 3, local fallback: fetch the full directory; any exception,
non-list or falsy payload yields `None`; otherwise build `station_map`,
return the exact lower-cased key hit if there is one, else the best
`difflib.get_close_matches(search_key, station_map.keys(), n=1,
cutoff=0.6)` hit if there is one, else `None`. -/
def localFallback (resp : SearchResponse) (clean : String) : Option String :=
  match resp with
  | .list (r :: rs) =>
    match dictFind (buildStationMap (r :: rs)) (pyLower clean) with
    | some c => c
    | none =>
      match getCloseMatchesBest (pyLower clean) (dictKeys (buildStationMap (r :: rs)))
          (3 / 5 : Rat) with
      | some best => (dictFind (buildStationMap (r :: rs)) best).join
      | none => none
  | _ => none

/-- `resolve_station_code`, instrumented with the number of station-API
requests the call issues.  Python `None` is `none`. -/
def resolveT (env : Env) (station_name : String) : Option String × Nat :=
  if station_name = "" then (none, 0)
  else if pyIsDigit (pyStrip station_name) then (some (pyStrip station_name), 0)
  else if (pyStrip station_name).length ≤ 6 ∧ pyIsUpper (pyStrip station_name) = true then
    (some (pyStrip station_name), 0)
  else
    match searchStep env.search with
    | some c => (c, 1)
    | none => (localFallback env.full (pyStrip station_name), 2)

/-- `resolve_station_code` proper: just the resolved value. -/
def resolve_station_code (env : Env) (station_name : String) : Option String :=
  (resolveT env station_name).1

/-! ### Trips and the ranking step of `ns_plan_trip` -/

/-- The `product` object of a leg; `categoryCode` is `none` when the key
is missing (`prod.get("categoryCode", "")` then defaults it to `""`). -/
structure TripProduct where
  categoryCode : Option String
deriving DecidableEq, Repr

/-- One leg of a trip; `product` is `none` when the key is missing
(`leg.get("product", {})` then defaults it to `{}`). -/
structure TripLeg where
  product : Option TripProduct
deriving DecidableEq, Repr

/-- One trip candidate; `status` and `legs` are `none` when the keys are
missing (`trip.get("status")`, `trip.get("legs", [])`). -/
structure Trip where
  status : Option String
  legs : Option (List TripLeg)
deriving DecidableEq, Repr

/-- `preferred_codes = ["ICD", "ECC"]`. -/
def preferred_codes : List String := ["ICD", "ECC"]

/-- The category code the scorer reads from a leg:
`leg.get("product", {}).get("categoryCode", "")`. -/
def legCategoryCode (leg : TripLeg) : String :=
  ((leg.product.getD ⟨none⟩).categoryCode).getD ""

/-- `get_trip_score` from `ns_plan_trip`. -/
def get_trip_score (trip : Trip) : Nat :=
  let is_cancelled : Bool := decide (trip.status = some "CANCELLED")
  let has_preferred : Bool :=
    (trip.legs.getD []).any (fun leg => preferred_codes.contains (legCategoryCode leg))
  if has_preferred && !is_cancelled then 3
  else if !has_preferred && !is_cancelled then 2
  else if has_preferred && is_cancelled then 1
  else 0

/-- `trips.sort(key=..., reverse=True)`: the CPython sort is specified as
a stable sort and `reverse=True` preserves the original order of equal
keys.  A stable descending sort is uniquely determined by (permutation,
non-increasing keys, preservation of equal-key order), so insertion sort
with the relation `key y ≤ key x` is extensionally the Python sort. -/
def pySortDesc {α : Type} (key : α → Nat) (l : List α) : List α :=
  l.insertionSort (fun x y => key y ≤ key x)

/-- The ranking step of `ns_plan_trip` applied to the decoded `trips`
list. -/
def rankTrips (trips : List Trip) : List Trip :=
  pySortDesc get_trip_score trips

/-! ### `ns_plan_trip` -/

/-- What the trips endpoint would answer: an exception / non-2xx, or a
body whose `trips` field decodes to the given list. -/
inductive TripsResponse where
  | netError
  | trips (l : List Trip)
deriving DecidableEq, Repr

/-- The remote world one `ns_plan_trip` call can observe. -/
structure PlanEnv where
  originEnv : Env
  destEnv : Env
  tripsResp : TripsResponse
deriving DecidableEq, Repr

/-- A single quote character, used in the error messages. -/
def sq : String := String.mk [Char.ofNat 39]

/-- Result of `ns_plan_trip` (an error string or the ranked trips),
paired with whether the trip-planning request was issued. -/
def ns_plan_trip (env : PlanEnv) (origin destination : String) :
    (String ⊕ List Trip) × Bool :=
  match resolve_station_code env.originEnv origin with
  | none => (Sum.inl ("Error: Could not find station code for origin " ++
      sq ++ origin ++ sq ++ "."), false)
  | some oc =>
    if oc = "" then (Sum.inl ("Error: Could not find station code for origin " ++
      sq ++ origin ++ sq ++ "."), false)
    else
      match resolve_station_code env.destEnv destination with
      | none => (Sum.inl ("Error: Could not find station code for destination " ++
          sq ++ destination ++ sq ++ "."), false)
      | some dc =>
        if dc = "" then (Sum.inl ("Error: Could not find station code for destination " ++
            sq ++ destination ++ sq ++ "."), false)
        else
          match env.tripsResp with
          | .netError => (Sum.inl "Error in ns_plan_trip", true)
          | .trips l => (Sum.inr (rankTrips l), true)

/-! ### Derived notions used by the statements -/

/-- The station records carried by a response (none for failures). -/
def responseRecords : SearchResponse → List StationRecord
  | .list rs => rs
  | _ => []

/-- Every station code occurring in some record the environment can
serve. -/
def envCodes (env : Env) : List String :=
  (responseRecords env.search ++ responseRecords env.full).filterMap (fun r => r.code)

/-- Well-formed remote data: every served record carries a present,
non-empty `code` field. -/
def envWF (env : Env) : Prop :=
  ∀ r ∈ responseRecords env.search ++ responseRecords env.full,
    r.code ≠ none ∧ r.code ≠ some ""

instance (env : Env) : Decidable (envWF env) := by
  unfold envWF; infer_instance

/-- The label contributed by one optional name field: present and truthy
or nothing. -/
def nameLabel (nm : Option String) : List String :=
  match nm with
  | some n => if n ≠ "" then [n] else []
  | none => []

/-- The labels of a record that the index-building loop inserts: the
truthy `lang` / `middel` / `kort` names and all synonyms, in insertion
order. -/
def recordLabels (s : StationRecord) : List String :=
  nameLabel s.namen.lang ++ nameLabel s.namen.middel ++ nameLabel s.namen.kort ++
    s.synoniemen

/-- A trip has a leg whose product category code is preferred. -/
def tripHasPreferredLeg (t : Trip) : Prop :=
  ∃ leg ∈ t.legs.getD [], legCategoryCode leg ∈ preferred_codes

/-- The status of a trip equals the cancelled sentinel. -/
def tripCancelled (t : Trip) : Prop :=
  t.status = some "CANCELLED"

instance (t : Trip) : Decidable (tripHasPreferredLeg t) := by
  unfold tripHasPreferredLeg; infer_instance

instance (t : Trip) : Decidable (tripCancelled t) := by
  unfold tripCancelled; infer_instance

/-! ### Concrete inputs used by the witnesses -/

/-- An environment in which both station requests fail. -/
def envFail : Env := { search := .netError, full := .netError }

/-- A one-record directory used to exercise the local fallback. -/
def recAB : StationRecord :=
  { code := some "AB"
    namen := { lang := some "ab cd", middel := none, kort := none }
    synoniemen := [] }

/-- An environment whose remote search fails but whose full directory
serves `recAB`. -/
def envAB : Env := { search := .netError, full := .list [recAB] }

/-- A plan environment in which every remote interaction fails. -/
def planEnvFail : PlanEnv :=
  { originEnv := envFail, destEnv := envFail, tripsResp := .netError }

/-- A trip with score 2: no preferred leg, not cancelled. -/
def tripA : Trip := { status := none, legs := none }

/-- A trip with score 3: a preferred (ICD) leg, not cancelled. -/
def tripB : Trip :=
  { status := some "NORMAL", legs := some [{ product := some { categoryCode := some "ICD" } }] }

/-- A second trip with score 2, distinct from `tripA`. -/
def tripC : Trip := { status := some "NORMAL", legs := some [] }

/-! ## Theorems -/

/-- A string passing the Python digit test is non-empty. -/
theorem pyIsDigit_ne_empty {s : String} (h : pyIsDigit s = true) : s ≠ "" := by
  rintro rfl; exact absurd h (by decide)

/-- A string passing the Python upper-case test is non-empty. -/
theorem pyIsUpper_ne_empty {s : String} (h : pyIsUpper s = true) : s ≠ "" := by
  rintro rfl; exact absurd h (by decide)

/-- Membership in a dict after one insertion. -/
theorem mem_dictInsert {d : List (String × Option String)} {k : String} {v : Option String}
    {p : String × Option String} (h : p ∈ dictInsert d k v) : p ∈ d ∨ p = (k, v) := by
  unfold dictInsert at h
  split at h
  · rcases List.mem_map.mp h with ⟨q, hq, hqe⟩
    by_cases hk : q.1 = k
    · rw [if_pos hk] at hqe
      exact Or.inr hqe.symm
    · rw [if_neg hk] at hqe
      exact Or.inl (hqe ▸ hq)
  · rcases List.mem_append.mp h with h | h
    · exact Or.inl h
    · exact Or.inr (List.mem_singleton.mp h)

/-- Membership in a dict after the synonym-insertion loop. -/
theorem mem_foldl_synonyms (code : Option String) :
    ∀ (syns : List String) (d : List (String × Option String)) (p : String × Option String),
      p ∈ syns.foldl (fun d syn => dictInsert d (pyLower syn) code) d →
      p ∈ d ∨ ∃ n ∈ syns, p = (pyLower n, code) := by
  intro syns
  induction syns with
  | nil => exact fun d p h => Or.inl h
  | cons syn syns ih =>
    intro d p h
    rcases ih _ p h with h2 | ⟨n, hn, he⟩
    · rcases mem_dictInsert h2 with h3 | h3
      · exact Or.inl h3
      · exact Or.inr ⟨syn, by simp, h3⟩
    · exact Or.inr ⟨n, by simp [hn], he⟩

/-- Membership in a dict after one conditional name insertion. -/
theorem mem_nameInsert {d : List (String × Option String)} {code : Option String}
    (nm : Option String) {p : String × Option String}
    (h : p ∈ nameInsert d nm code) :
    p ∈ d ∨ ∃ n, nm = some n ∧ n ≠ "" ∧ p = (pyLower n, code) := by
  cases nm with
  | none => exact Or.inl h
  | some n =>
    change p ∈ (if n ≠ "" then dictInsert d (pyLower n) code else d) at h
    by_cases hn : n ≠ ""
    · rw [if_pos hn] at h
      rcases mem_dictInsert h with h2 | h2
      · exact Or.inl h2
      · exact Or.inr ⟨n, rfl, hn, h2⟩
    · rw [if_neg hn] at h
      exact Or.inl h

/-- The label list decodes membership back to a present truthy name. -/
theorem mem_nameLabel {nm : Option String} {n : String} (h : n ∈ nameLabel nm) :
    nm = some n ∧ n ≠ "" := by
  cases nm with
  | none => exact absurd h (by simp [nameLabel])
  | some m =>
    change n ∈ (if m ≠ "" then [m] else []) at h
    by_cases hm : m ≠ ""
    · rw [if_pos hm] at h
      have := List.mem_singleton.mp h
      subst this
      exact ⟨rfl, hm⟩
    · rw [if_neg hm] at h
      exact absurd h (by simp)

/-- Every entry inserted by one record is one of its lower-cased labels
mapped to its code. -/
theorem mem_insertRecord {d : List (String × Option String)} {s : StationRecord}
    {p : String × Option String} (h : p ∈ insertRecord d s) :
    p ∈ d ∨ ∃ n ∈ recordLabels s, p = (pyLower n, s.code) := by
  unfold insertRecord at h
  rcases mem_foldl_synonyms s.code s.synoniemen _ p h with h | ⟨n, hn, he⟩
  · rcases mem_nameInsert s.namen.kort h with h | ⟨n, hn, hne, he⟩
    · rcases mem_nameInsert s.namen.middel h with h | ⟨n, hn, hne, he⟩
      · rcases mem_nameInsert s.namen.lang h with h | ⟨n, hn, hne, he⟩
        · exact Or.inl h
        · exact Or.inr ⟨n, by simp [recordLabels, nameLabel, hn, hne], he⟩
      · exact Or.inr ⟨n, by simp [recordLabels, nameLabel, hn, hne], he⟩
    · exact Or.inr ⟨n, by simp [recordLabels, nameLabel, hn, hne], he⟩
  · exact Or.inr ⟨n, by simp [recordLabels, hn], he⟩

/-- Every entry of the station index comes verbatim from some record:
its key is a lower-cased label and its value the code of that record. -/
theorem mem_buildStationMap_fold :
    ∀ (rs : List StationRecord) (d : List (String × Option String))
      (p : String × Option String),
      p ∈ rs.foldl insertRecord d →
      p ∈ d ∨ ∃ s ∈ rs, ∃ n ∈ recordLabels s, p = (pyLower n, s.code) := by
  intro rs
  induction rs with
  | nil => exact fun d p h => Or.inl h
  | cons r rs ih =>
    intro d p h
    rcases ih _ p h with h | ⟨s, hs, hn⟩
    · rcases mem_insertRecord h with h | ⟨n, hn, he⟩
      · exact Or.inl h
      · exact Or.inr ⟨r, by simp, n, hn, he⟩
    · exact Or.inr ⟨s, by simp [hs], hn⟩

/-- The key just inserted is a key of the dict. -/
theorem mem_dictKeys_dictInsert_self (d : List (String × Option String)) (k : String)
    (v : Option String) : k ∈ dictKeys (dictInsert d k v) := by
  unfold dictInsert
  split
  · rename_i hany
    rcases List.any_eq_true.mp hany with ⟨p, hp, hpk⟩
    have hpk2 : p.1 = k := of_decide_eq_true hpk
    simp only [dictKeys, List.mem_map]
    refine ⟨(k, v), ⟨p, hp, ?_⟩, rfl⟩
    rw [if_pos hpk2]
  · simp [dictKeys]

/-- Insertion preserves existing keys. -/
theorem mem_dictKeys_dictInsert_mono {d : List (String × Option String)} {k' : String}
    (h : k' ∈ dictKeys d) (k : String) (v : Option String) :
    k' ∈ dictKeys (dictInsert d k v) := by
  unfold dictInsert
  split
  · simp only [dictKeys, List.mem_map] at h ⊢
    rcases h with ⟨p, hp, rfl⟩
    by_cases hpk : p.1 = k
    · refine ⟨(k, v), ⟨p, hp, ?_⟩, hpk.symm⟩
      rw [if_pos hpk]
    · refine ⟨p, ⟨p, hp, ?_⟩, rfl⟩
      rw [if_neg hpk]
  · simp only [dictKeys, List.mem_map] at h ⊢
    rcases h with ⟨p, hp, rfl⟩
    exact ⟨p, List.mem_append_left _ hp, rfl⟩

/-- The synonym loop preserves existing keys. -/
theorem mem_dictKeys_synFold_mono (code : Option String) :
    ∀ (syns : List String) (d : List (String × Option String)) {k : String},
      k ∈ dictKeys d →
      k ∈ dictKeys (syns.foldl (fun d syn => dictInsert d (pyLower syn) code) d) := by
  intro syns
  induction syns with
  | nil => exact fun d _ h => h
  | cons syn syns ih =>
    intro d k h
    exact ih _ (mem_dictKeys_dictInsert_mono h _ _)

/-- The synonym loop inserts the key of every synonym. -/
theorem mem_dictKeys_synFold_self (code : Option String) :
    ∀ (syns : List String) (d : List (String × Option String)) {n : String},
      n ∈ syns →
      pyLower n ∈ dictKeys (syns.foldl (fun d syn => dictInsert d (pyLower syn) code) d) := by
  intro syns
  induction syns with
  | nil => intro d n h; exact absurd h (by simp)
  | cons syn syns ih =>
    intro d n h
    rcases List.mem_cons.mp h with rfl | h2
    · exact mem_dictKeys_synFold_mono code syns _ (mem_dictKeys_dictInsert_self d _ _)
    · exact ih _ h2

/-- A conditional name insertion preserves existing keys. -/
theorem mem_dictKeys_nameInsert_mono {d : List (String × Option String)} {k : String}
    (h : k ∈ dictKeys d) (nm : Option String) (code : Option String) :
    k ∈ dictKeys (nameInsert d nm code) := by
  cases nm with
  | none => exact h
  | some n =>
    change k ∈ dictKeys (if n ≠ "" then dictInsert d (pyLower n) code else d)
    by_cases hn : n ≠ ""
    · rw [if_pos hn]
      exact mem_dictKeys_dictInsert_mono h _ _
    · rw [if_neg hn]
      exact h

/-- A truthy present name becomes a key after its insertion. -/
theorem mem_dictKeys_nameInsert_self {n : String} (hn : n ≠ "")
    (d : List (String × Option String)) (code : Option String) :
    pyLower n ∈ dictKeys (nameInsert d (some n) code) := by
  change pyLower n ∈ dictKeys (if n ≠ "" then dictInsert d (pyLower n) code else d)
  rw [if_pos hn]
  exact mem_dictKeys_dictInsert_self d _ _

/-- Inserting a record preserves existing keys. -/
theorem mem_dictKeys_insertRecord_mono {d : List (String × Option String)} {k : String}
    (h : k ∈ dictKeys d) (s : StationRecord) : k ∈ dictKeys (insertRecord d s) := by
  unfold insertRecord
  exact mem_dictKeys_synFold_mono _ _ _
    (mem_dictKeys_nameInsert_mono (mem_dictKeys_nameInsert_mono
      (mem_dictKeys_nameInsert_mono h _ _) _ _) _ _)

/-- Inserting a record makes every lower-cased label of the record a key. -/
theorem mem_dictKeys_insertRecord_label {d : List (String × Option String)}
    {s : StationRecord} {n : String} (hn : n ∈ recordLabels s) :
    pyLower n ∈ dictKeys (insertRecord d s) := by
  unfold insertRecord
  rw [recordLabels] at hn
  rcases List.mem_append.mp hn with hn1 | hsyn
  · rcases List.mem_append.mp hn1 with hn2 | hkort
    · rcases List.mem_append.mp hn2 with hlang | hmiddel
      · rcases mem_nameLabel hlang with ⟨he, hne⟩
        rw [he]
        exact mem_dictKeys_synFold_mono _ _ _
          (mem_dictKeys_nameInsert_mono (mem_dictKeys_nameInsert_mono
            (mem_dictKeys_nameInsert_self hne _ _) _ _) _ _)
      · rcases mem_nameLabel hmiddel with ⟨he, hne⟩
        rw [he]
        exact mem_dictKeys_synFold_mono _ _ _
          (mem_dictKeys_nameInsert_mono (mem_dictKeys_nameInsert_self hne _ _) _ _)
    · rcases mem_nameLabel hkort with ⟨he, hne⟩
      rw [he]
      exact mem_dictKeys_synFold_mono _ _ _ (mem_dictKeys_nameInsert_self hne _ _)
  · exact mem_dictKeys_synFold_self _ _ _ hsyn

/-- The record fold preserves existing keys. -/
theorem mem_dictKeys_recFold_mono :
    ∀ (rs : List StationRecord) (d : List (String × Option String)) {k : String},
      k ∈ dictKeys d → k ∈ dictKeys (rs.foldl insertRecord d) := by
  intro rs
  induction rs with
  | nil => exact fun d _ h => h
  | cons r rs ih =>
    intro d k h
    exact ih _ (mem_dictKeys_insertRecord_mono h r)

/-- The record fold inserts the key of every label of every folded
record. -/
theorem mem_dictKeys_recFold_label :
    ∀ (rs : List StationRecord) (d : List (String × Option String)) {s : StationRecord},
      s ∈ rs → ∀ {n : String}, n ∈ recordLabels s →
      pyLower n ∈ dictKeys (rs.foldl insertRecord d) := by
  intro rs
  induction rs with
  | nil => intro d s hs; exact absurd hs (by simp)
  | cons r rs ih =>
    intro d s hs n hn
    rcases List.mem_cons.mp hs with rfl | hs2
    · exact mem_dictKeys_recFold_mono rs _ (mem_dictKeys_insertRecord_label hn)
    · exact ih _ hs2 hn

/-- Every lower-cased label of every record is a key of the station
index. -/
theorem mem_dictKeys_buildStationMap {rs : List StationRecord} {s : StationRecord}
    (hs : s ∈ rs) {n : String} (hn : n ∈ recordLabels s) :
    pyLower n ∈ dictKeys (buildStationMap rs) :=
  mem_dictKeys_recFold_label rs [] hs hn

/-- A value served by the index lookup is the code of some record. -/
theorem dictFind_code {rs : List StationRecord} {k : String} {v : Option String}
    (hf : dictFind (buildStationMap rs) k = some v) :
    ∃ s ∈ rs, s.code = v := by
  rcases hfind : (buildStationMap rs).find? (fun p => p.1 = k) with - | q
  · rw [dictFind, hfind] at hf
    exact absurd hf (by simp)
  · have hq : q ∈ buildStationMap rs := List.mem_of_find?_eq_some hfind
    have hq2 : q.2 = v := by
      rw [dictFind, hfind] at hf
      simpa using hf
    rcases mem_buildStationMap_fold rs [] q hq with h3 | ⟨s, hs, n, hn, he⟩
    · exact absurd h3 (by simp)
    · exact ⟨s, hs, by rw [← hq2, he]⟩

/-- A successful local fallback returns the code of a served record. -/
theorem localFallback_code {resp : SearchResponse} {clean c : String}
    (h : localFallback resp clean = some c) :
    ∃ s ∈ responseRecords resp, s.code = some c := by
  cases resp with
  | netError => exact absurd h (by simp [localFallback])
  | nonList => exact absurd h (by simp [localFallback])
  | list rs =>
    cases rs with
    | nil => exact absurd h (by simp [localFallback])
    | cons r rs =>
      simp only [localFallback] at h
      rcases hf : dictFind (buildStationMap (r :: rs)) (pyLower clean) with - | v
      · rw [hf] at h
        rcases hb : getCloseMatchesBest (pyLower clean)
            (dictKeys (buildStationMap (r :: rs))) (3 / 5 : Rat) with - | best
        · rw [hb] at h
          exact absurd h (by simp)
        · rw [hb] at h
          have h2 : (dictFind (buildStationMap (r :: rs)) best).join = some c := h
          rcases hf2 : dictFind (buildStationMap (r :: rs)) best with - | v
          · rw [hf2] at h2
            exact absurd h2 (by simp)
          · rw [hf2] at h2
            have hv : v = some c := h2
            exact hv ▸ dictFind_code hf2
      · rw [hf] at h
        have hv : v = some c := h
        exact hv ▸ dictFind_code hf

/-- Unfolding equation of the best-match fold step on a present seed. -/
theorem bestStep_some_eq (w x a0 : String) :
    bestStep w (some a0) x =
      if ratioOf a0 w < ratioOf x w ∨ (ratioOf a0 w = ratioOf x w ∧ a0 < x)
      then some x else some a0 := rfl

/-- The fold step of the best-match selection never loses the running
best. -/
theorem bestStep_isSome (w : String) (acc : Option String) (x : String) :
    (bestStep w acc x).isSome = true := by
  cases acc with
  | none => rfl
  | some b =>
    rw [bestStep_some_eq]
    split <;> rfl

/-- An empty best-match fold result means there were no candidates. -/
theorem foldl_bestStep_none {w : String} :
    ∀ (l : List String) (acc : Option String),
      l.foldl (bestStep w) acc = none → acc = none ∧ l = [] := by
  intro l
  induction l with
  | nil => exact fun acc h => ⟨h, rfl⟩
  | cons x xs ih =>
    intro acc h
    rcases ih _ h with ⟨h2, -⟩
    have h3 := bestStep_isSome w acc x
    rw [h2] at h3
    exact absurd h3 (by simp)

/-- The best-match fold returns an element of the candidates (or the
seed) whose ratio dominates every candidate and the seed. -/
theorem foldl_bestStep_spec {w : String} :
    ∀ (l : List String) (acc : Option String) (b : String),
      l.foldl (bestStep w) acc = some b →
      (b ∈ l ∨ acc = some b) ∧
      (∀ x ∈ l, ratioOf x w ≤ ratioOf b w) ∧
      (∀ a, acc = some a → ratioOf a w ≤ ratioOf b w) := by
  intro l
  induction l with
  | nil =>
    intro acc b h
    refine ⟨Or.inr h, by simp, fun a ha => ?_⟩
    have h2 : some b = some a := h.symm.trans ha
    injection h2 with h3
    rw [h3]
  | cons x xs ih =>
    intro acc b h
    rcases ih (bestStep w acc x) b h with ⟨hmem, hall, hacc⟩
    have hx : ratioOf x w ≤ ratioOf b w := by
      cases acc with
      | none => exact hacc x rfl
      | some a0 =>
        by_cases hcond : ratioOf a0 w < ratioOf x w ∨
            (ratioOf a0 w = ratioOf x w ∧ a0 < x)
        · exact hacc x (by rw [bestStep_some_eq, if_pos hcond])
        · have ha0 : ratioOf a0 w ≤ ratioOf b w :=
            hacc a0 (by rw [bestStep_some_eq, if_neg hcond])
          have hxa : ratioOf x w ≤ ratioOf a0 w := by
            push_neg at hcond
            exact hcond.1
          exact le_trans hxa ha0
    refine ⟨?_, ?_, ?_⟩
    · rcases hmem with h2 | h2
      · exact Or.inl (List.mem_cons_of_mem _ h2)
      · cases acc with
        | none =>
          have h3 : some x = some b := h2
          injection h3 with h4
          exact Or.inl (h4 ▸ List.mem_cons_self x xs)
        | some a0 =>
          by_cases hcond : ratioOf a0 w < ratioOf x w ∨
              (ratioOf a0 w = ratioOf x w ∧ a0 < x)
          · have h3 : some x = some b := by
              rw [← h2, bestStep_some_eq, if_pos hcond]
            injection h3 with h4
            exact Or.inl (h4 ▸ List.mem_cons_self x xs)
          · have h3 : some a0 = some b := by
              rw [← h2, bestStep_some_eq, if_neg hcond]
            exact Or.inr h3
    · intro y hy
      rcases List.mem_cons.mp hy with rfl | hy2
      · exact hx
      · exact hall y hy2
    · intro a ha
      subst ha
      by_cases hcond : ratioOf a w < ratioOf x w ∨
          (ratioOf a w = ratioOf x w ∧ a < x)
      · have hax : ratioOf a w ≤ ratioOf x w := by
          rcases hcond with h2 | ⟨h2, -⟩
          · exact le_of_lt h2
          · exact le_of_eq h2
        exact le_trans hax hx
      · exact hacc a (by rw [bestStep_some_eq, if_neg hcond])

/-- A returned best match is a candidate at or above the cutoff whose
ratio dominates every candidate at or above the cutoff. -/
theorem getCloseMatchesBest_some {w : String} {cutoff : Rat} {ps : List String} {b : String}
    (h : getCloseMatchesBest w ps cutoff = some b) :
    b ∈ ps ∧ cutoff ≤ ratioOf b w ∧
      ∀ x ∈ ps, cutoff ≤ ratioOf x w → ratioOf x w ≤ ratioOf b w := by
  unfold getCloseMatchesBest at h
  rcases foldl_bestStep_spec _ _ _ h with ⟨hmem, hall, -⟩
  have hmem2 : b ∈ ps.filter (fun x => cutoff ≤ ratioOf x w) := by
    rcases hmem with h2 | h2
    · exact h2
    · exact absurd h2 (by simp)
  refine ⟨List.mem_of_mem_filter hmem2, ?_, ?_⟩
  · exact of_decide_eq_true (List.mem_filter.mp hmem2).2
  · intro x hx hcut
    exact hall x (List.mem_filter.mpr ⟨hx, decide_eq_true hcut⟩)

/-- No best match means no candidate reaches the cutoff. -/
theorem getCloseMatchesBest_none {w : String} {cutoff : Rat} {ps : List String}
    (h : getCloseMatchesBest w ps cutoff = none) :
    ∀ x ∈ ps, ¬ cutoff ≤ ratioOf x w := by
  unfold getCloseMatchesBest at h
  rcases foldl_bestStep_none _ _ h with ⟨-, hnil⟩
  intro x hx hcut
  have h2 : x ∈ ps.filter (fun x => cutoff ≤ ratioOf x w) :=
    List.mem_filter.mpr ⟨hx, decide_eq_true hcut⟩
  rw [hnil] at h2
  exact absurd h2 (by simp)

/-- C1: whenever the environment serves only records carrying a present,
non-empty code, resolution yields either the explicit unresolved signal
or a non-empty code taken verbatim from the input bypass or from a
served station record. -/
theorem C1_total_or_explicit (env : Env) (name : String) (hwf : envWF env) (c : String)
    (hc : resolve_station_code env name = some c) :
    c ≠ "" ∧ (c = pyStrip name ∨ c ∈ envCodes env) := by
  unfold resolve_station_code resolveT at hc
  by_cases h0 : name = ""
  · rw [if_pos h0] at hc
    exact absurd hc (by simp)
  rw [if_neg h0] at hc
  by_cases hd : pyIsDigit (pyStrip name) = true
  · rw [if_pos hd] at hc
    simp only [Option.some.injEq] at hc
    subst hc
    exact ⟨pyIsDigit_ne_empty hd, Or.inl rfl⟩
  rw [if_neg hd] at hc
  by_cases hu : (pyStrip name).length ≤ 6 ∧ pyIsUpper (pyStrip name) = true
  · rw [if_pos hu] at hc
    simp only [Option.some.injEq] at hc
    subst hc
    exact ⟨pyIsUpper_ne_empty hu.2, Or.inl rfl⟩
  rw [if_neg hu] at hc
  rcases hse : env.search with - | - | rs
  · rw [hse] at hc
    rcases localFallback_code hc with ⟨s, hs, hcode⟩
    have hmem : s ∈ responseRecords env.search ++ responseRecords env.full :=
      List.mem_append_right _ hs
    refine ⟨fun hce => ((hwf s hmem).2 (by rw [hcode, hce])), Or.inr ?_⟩
    exact List.mem_filterMap.mpr ⟨s, hmem, hcode⟩
  · rw [hse] at hc
    rcases localFallback_code hc with ⟨s, hs, hcode⟩
    have hmem : s ∈ responseRecords env.search ++ responseRecords env.full :=
      List.mem_append_right _ hs
    refine ⟨fun hce => ((hwf s hmem).2 (by rw [hcode, hce])), Or.inr ?_⟩
    exact List.mem_filterMap.mpr ⟨s, hmem, hcode⟩
  · cases rs with
    | nil =>
      rw [hse] at hc
      rcases localFallback_code hc with ⟨s, hs, hcode⟩
      have hmem : s ∈ responseRecords env.search ++ responseRecords env.full :=
        List.mem_append_right _ hs
      refine ⟨fun hce => ((hwf s hmem).2 (by rw [hcode, hce])), Or.inr ?_⟩
      exact List.mem_filterMap.mpr ⟨s, hmem, hcode⟩
    | cons r rs =>
      rw [hse] at hc
      have hcode : r.code = some c := hc
      have hmem : r ∈ responseRecords env.search ++ responseRecords env.full := by
        rw [hse]
        exact List.mem_append_left _ (by simp [responseRecords])
      refine ⟨fun hce => ((hwf r hmem).2 (by rw [hcode, hce])), Or.inr ?_⟩
      exact List.mem_filterMap.mpr ⟨r, hmem, hcode⟩

/-- Witness for C1: a well-formed environment in which the search fails
and the full directory resolves "ab cd" to the code "AB" of its record. -/
theorem C1_witness :
    envWF envAB ∧ resolve_station_code envAB "ab cd" = some "AB" ∧
    ("AB" ≠ "" ∧ ("AB" = pyStrip "ab cd" ∨ "AB" ∈ envCodes envAB)) :=
  ⟨by decide, by decide, C1_total_or_explicit envAB "ab cd" (by decide) "AB" (by decide)⟩

/-- C3: when the remote search raises (transport failure, non-2xx, any
exception) or returns an empty result list, resolution is exactly the
local fallback on the full-directory response, with both requests
attempted: the failure is swallowed, not surfaced. -/
theorem C3_search_failure_swallowed (env : Env) (name : String)
    (h0 : name ≠ "")
    (h1 : ¬ pyIsDigit (pyStrip name) = true)
    (h2 : ¬ ((pyStrip name).length ≤ 6 ∧ pyIsUpper (pyStrip name) = true))
    (hf : env.search = .netError ∨ env.search = .list []) :
    resolveT env name = (localFallback env.full (pyStrip name), 2) := by
  unfold resolveT
  rw [if_neg h0, if_neg h1, if_neg h2]
  rcases hf with hf | hf <;> rw [hf] <;> rfl

/-- Witness for C3 at the query "Rotterdam" against an environment whose
search request fails. -/
theorem C3_witness :
    ("Rotterdam" ≠ "" ∧ ¬ pyIsDigit (pyStrip "Rotterdam") = true ∧
      ¬ ((pyStrip "Rotterdam").length ≤ 6 ∧ pyIsUpper (pyStrip "Rotterdam") = true)) ∧
    resolveT envAB "Rotterdam" = (localFallback envAB.full (pyStrip "Rotterdam"), 2) :=
  ⟨⟨by decide, by decide, by decide⟩,
    C3_search_failure_swallowed envAB "Rotterdam" (by decide) (by decide) (by decide)
      (Or.inl rfl)⟩

/-- C4: the local fallback builds an index whose keys are exactly the
lower-cased names and synonyms of the served records, each mapped to the
code of a record carrying that label; it first tries an exact lookup of
the lower-cased query, and only on a miss runs the approximate matching
over all index keys at cutoff 0.6 (= 3/5), returning the value of the
single best match above the cutoff if one exists and nothing
otherwise. -/
theorem C4_local_fallback_structure (rs : List StationRecord) (hne : rs ≠ [])
    (clean : String) :
    ((∀ s ∈ rs, ∀ n ∈ recordLabels s, pyLower n ∈ dictKeys (buildStationMap rs)) ∧
      (∀ p ∈ buildStationMap rs, ∃ s ∈ rs, ∃ n ∈ recordLabels s,
        p = (pyLower n, s.code))) ∧
    (∀ v, dictFind (buildStationMap rs) (pyLower clean) = some v →
      localFallback (.list rs) clean = v) ∧
    (dictFind (buildStationMap rs) (pyLower clean) = none →
      (∀ b, getCloseMatchesBest (pyLower clean) (dictKeys (buildStationMap rs))
          (3 / 5 : Rat) = some b →
        localFallback (.list rs) clean = (dictFind (buildStationMap rs) b).join ∧
        (3 / 5 : Rat) ≤ ratioOf b (pyLower clean) ∧
        b ∈ dictKeys (buildStationMap rs) ∧
        ∀ x ∈ dictKeys (buildStationMap rs),
          (3 / 5 : Rat) ≤ ratioOf x (pyLower clean) →
          ratioOf x (pyLower clean) ≤ ratioOf b (pyLower clean)) ∧
      (getCloseMatchesBest (pyLower clean) (dictKeys (buildStationMap rs))
          (3 / 5 : Rat) = none →
        localFallback (.list rs) clean = none)) := by
  obtain ⟨r, rs2, rfl⟩ : ∃ r rs2, rs = r :: rs2 := by
    cases rs with
    | nil => exact absurd rfl hne
    | cons r rs2 => exact ⟨r, rs2, rfl⟩
  refine ⟨⟨?_, ?_⟩, ?_, ?_⟩
  · intro s hs n hn
    exact mem_dictKeys_buildStationMap hs hn
  · intro p hp
    rcases mem_buildStationMap_fold _ [] p hp with h | h
    · exact absurd h (by simp)
    · exact h
  · intro v hv
    simp only [localFallback]
    rw [hv]
  · intro hnone
    constructor
    · intro b hb
      refine ⟨?_, ?_⟩
      · simp only [localFallback]
        rw [hnone, hb]
      · rcases getCloseMatchesBest_some hb with ⟨hmem, hcut, hmax⟩
        exact ⟨hcut, hmem, hmax⟩
    · intro hb
      simp only [localFallback]
      rw [hnone, hb]

/-- Witness for C4: the one-record directory for "ab cd" misses the exact
lookup for the query "abcd" and the fuzzy step selects "ab cd"
(ratio 8/9 above the 3/5 cutoff) as the single best match. -/
theorem C4_witness :
    ([recAB] ≠ ([] : List StationRecord)) ∧
    dictFind (buildStationMap [recAB]) (pyLower "abcd") = none ∧
    getCloseMatchesBest (pyLower "abcd") (dictKeys (buildStationMap [recAB]))
      (3 / 5 : Rat) = some "ab cd" ∧
    (localFallback (.list [recAB]) "abcd" =
        (dictFind (buildStationMap [recAB]) "ab cd").join ∧
      (3 / 5 : Rat) ≤ ratioOf "ab cd" (pyLower "abcd") ∧
      "ab cd" ∈ dictKeys (buildStationMap [recAB]) ∧
      ∀ x ∈ dictKeys (buildStationMap [recAB]),
        (3 / 5 : Rat) ≤ ratioOf x (pyLower "abcd") →
        ratioOf x (pyLower "abcd") ≤ ratioOf "ab cd" (pyLower "abcd")) := by
  have hkeys : dictKeys (buildStationMap [recAB]) = ["ab cd"] := by decide
  have hm : matchTotal "ab cd".toList (pyLower "abcd").toList = 4 := by decide
  have h9 : "ab cd".toList.length + (pyLower "abcd").toList.length = 9 := by decide
  have hr : ratioOf "ab cd" (pyLower "abcd") = 8 / 9 := by
    simp only [ratioOf, h9, hm]
    norm_num
  have hcut : (3 / 5 : Rat) ≤ ratioOf "ab cd" (pyLower "abcd") := by
    rw [hr]
    norm_num
  have hbest : getCloseMatchesBest (pyLower "abcd") (dictKeys (buildStationMap [recAB]))
      (3 / 5 : Rat) = some "ab cd" := by
    unfold getCloseMatchesBest
    rw [hkeys]
    have hfil : List.filter (fun x => decide ((3 / 5 : Rat) ≤ ratioOf x (pyLower "abcd")))
        ["ab cd"] = ["ab cd"] := by
      simp [List.filter, hcut]
    rw [hfil]
    rfl
  exact ⟨by decide, by decide, hbest,
    ((C4_local_fallback_structure [recAB] (by decide) "abcd").2.2
      (by decide)).1 "ab cd" hbest⟩

/-- C2 (counterexample): the input " 123 " has an all-digit trimmed form,
yet `resolve_station_code` returns the trimmed string "123", not the
input string unchanged. -/
theorem C2_counterexample :
    pyIsDigit (pyStrip " 123 ") = true ∧
    resolve_station_code envFail " 123 " = some "123" ∧
    resolve_station_code envFail " 123 " ≠ some " 123 " :=
  ⟨by decide, by decide, by decide⟩

/-- C2 (amended): for every input whose trimmed form is all decimal
digits, or is at most 6 characters and upper-case in the Python sense,
`resolve_station_code` returns the trimmed form unchanged and issues no
network request. -/
theorem C2_amended_trimmed_passthrough (env : Env) (name : String)
    (h : pyIsDigit (pyStrip name) = true ∨
      ((pyStrip name).length ≤ 6 ∧ pyIsUpper (pyStrip name) = true)) :
    resolveT env name = (some (pyStrip name), 0) := by
  have hname : name ≠ "" := by
    rintro rfl
    rcases h with h | ⟨-, h⟩
    · exact absurd h (by decide)
    · exact absurd h (by decide)
  unfold resolveT
  rw [if_neg hname]
  rcases h with h | ⟨h1, h2⟩
  · simp [h]
  · by_cases hd : pyIsDigit (pyStrip name) = true
    · simp [hd]
    · simp [hd, h1, h2]

/-- Witness for the amended C2 at the concrete input " 123 ". -/
theorem C2_amended_witness :
    pyIsDigit (pyStrip " 123 ") = true ∧
    resolveT envFail " 123 " = (some (pyStrip " 123 "), 0) :=
  ⟨by decide, C2_amended_trimmed_passthrough envFail " 123 " (Or.inl (by decide))⟩

/-- C10: the short-code bypass keys on `isupper`, which only constrains
cased characters, so the 3-character input "A-B" (a non-letter among
upper-case letters) is returned unchanged with no network request, in
every environment. -/
theorem C10_bypass_accepts_noncased (env : Env) :
    resolveT env "A-B" = (some "A-B", 0) ∧
    pyIsUpper "A-B" = true ∧ "A-B".length ≤ 6 ∧
    "A-B".toList.all (fun c => c.isAlpha) = false :=
  ⟨rfl, by decide, by decide, by decide⟩

/-- C5: the trip score is exactly the 3 / 2 / 1 / 0 table over
presence of a preferred-category leg and cancellation. -/
theorem C5_score_table (t : Trip) :
    get_trip_score t =
      if tripHasPreferredLeg t then (if tripCancelled t then 1 else 3)
      else (if tripCancelled t then 0 else 2) := by
  have hval :
      ((t.legs.getD []).any (fun leg => preferred_codes.contains (legCategoryCode leg)) = true)
        ↔ tripHasPreferredLeg t := by
    simp [tripHasPreferredLeg, List.any_eq_true]
  have hcval : (decide (t.status = some "CANCELLED") = true) ↔ tripCancelled t := by
    simp [tripCancelled]
  rcases hb : (t.legs.getD []).any (fun leg => preferred_codes.contains (legCategoryCode leg))
      with - | - <;>
    rcases hs : decide (t.status = some "CANCELLED") with - | -
  · rw [if_neg (fun hpp => by
        have h2 := hval.mpr hpp; rw [hb] at h2; exact Bool.false_ne_true h2),
      if_neg (fun hcc => by
        have h2 := hcval.mpr hcc; rw [hs] at h2; exact Bool.false_ne_true h2)]
    simp only [get_trip_score]
    rw [hb, hs]
    rfl
  · rw [if_neg (fun hpp => by
        have h2 := hval.mpr hpp; rw [hb] at h2; exact Bool.false_ne_true h2),
      if_pos (hcval.mp hs)]
    simp only [get_trip_score]
    rw [hb, hs]
    rfl
  · rw [if_pos (hval.mp hb),
      if_neg (fun hcc => by
        have h2 := hcval.mpr hcc; rw [hs] at h2; exact Bool.false_ne_true h2)]
    simp only [get_trip_score]
    rw [hb, hs]
    rfl
  · rw [if_pos (hval.mp hb), if_pos (hcval.mp hs)]
    simp only [get_trip_score]
    rw [hb, hs]
    rfl

/-- Filtering a fixed key fibre commutes with one descending ordered
insertion: the inserted element lands directly in front of the equal-key
elements already present. -/
theorem filter_orderedInsert_key {α : Type} (key : α → Nat) (s : Nat) (a : α) (l : List α) :
    ((List.orderedInsert (fun x y => key y ≤ key x) a l).filter (fun t => key t == s)) =
      if key a = s then a :: l.filter (fun t => key t == s)
      else l.filter (fun t => key t == s) := by
  induction l with
  | nil => by_cases h : key a = s <;> simp [List.orderedInsert, h]
  | cons b bs ih =>
    by_cases hr : key b ≤ key a
    · rw [List.orderedInsert, if_pos hr]
      by_cases h : key a = s <;> simp [h]
    · rw [List.orderedInsert, if_neg hr]
      by_cases h : key a = s
      · have hbs : ¬ (key b = s) := by omega
        simp [h, hbs, ih]
      · by_cases hbs : key b = s <;> simp [h, hbs, ih]

/-- Stability of the descending sort: every equal-key fibre of the output
is exactly the corresponding fibre of the input, in input order. -/
theorem filter_pySortDesc {α : Type} (key : α → Nat) (s : Nat) (l : List α) :
    (pySortDesc key l).filter (fun t => key t == s) = l.filter (fun t => key t == s) := by
  induction l with
  | nil => rfl
  | cons a l ih =>
    rw [pySortDesc, List.insertionSort, filter_orderedInsert_key]
    rw [pySortDesc] at ih
    by_cases h : key a = s <;> simp [h, ih]

/-- The descending sort orders the keys non-increasingly. -/
theorem pySortDesc_sorted {α : Type} (key : α → Nat) (l : List α) :
    (pySortDesc key l).Pairwise (fun x y => key y ≤ key x) := by
  haveI : IsTotal α (fun x y => key y ≤ key x) :=
    ⟨fun a b => (Nat.le_total (key b) (key a)).elim Or.inl Or.inr⟩
  haveI : IsTrans α (fun x y => key y ≤ key x) :=
    ⟨fun _ _ _ hab hbc => le_trans hbc hab⟩
  exact List.sorted_insertionSort _ l

/-- C6: the ranking sort is non-increasing in the score and stable — all
equal-score fibres keep their input order — and on the concrete scenario
[A(2), B(3), C(2)] it returns [B, A, C]. -/
theorem C6_rank_desc_and_stable :
    (∀ l : List Trip, (rankTrips l).Pairwise
      (fun a b => get_trip_score b ≤ get_trip_score a)) ∧
    (∀ (l : List Trip) (s : Nat),
      (rankTrips l).filter (fun t => get_trip_score t == s) =
        l.filter (fun t => get_trip_score t == s)) ∧
    (get_trip_score tripA = 2 ∧ get_trip_score tripB = 3 ∧ get_trip_score tripC = 2 ∧
      rankTrips [tripA, tripB, tripC] = [tripB, tripA, tripC]) :=
  ⟨fun l => pySortDesc_sorted get_trip_score l,
   fun l s => filter_pySortDesc get_trip_score s l,
   by decide, by decide, by decide, by decide⟩

/-- C7: for every non-empty list of candidates the ranking step returns a
permutation of exactly the same elements. -/
theorem C7_rank_is_permutation (l : List Trip) (_h : l ≠ []) :
    (rankTrips l).Perm l :=
  List.perm_insertionSort _ l

/-- Witness for C7 at a concrete one-element list. -/
theorem C7_witness : ([tripA] ≠ []) ∧ (rankTrips [tripA]).Perm [tripA] :=
  ⟨by decide, C7_rank_is_permutation [tripA] (by decide)⟩

/-- C8: scoring degrades gracefully on malformed candidates: missing or
empty legs mean no preferred category, a missing or non-sentinel status
means not cancelled, the score is always one of the four table values,
and such a candidate is never dropped by the ranking step. -/
theorem C8_malformed_graceful (t : Trip) :
    (t.legs = none ∨ t.legs = some [] → ¬ tripHasPreferredLeg t) ∧
    ((t.status = none ∨ t.status ≠ some "CANCELLED") → ¬ tripCancelled t) ∧
    (get_trip_score t = 3 ∨ get_trip_score t = 2 ∨
      get_trip_score t = 1 ∨ get_trip_score t = 0) ∧
    (∀ l : List Trip, t ∈ l → t ∈ rankTrips l) := by
  refine ⟨?_, ?_, ?_, ?_⟩
  · rintro (h | h) <;> simp [tripHasPreferredLeg, h]
  · rintro (h | h) <;> simp [tripCancelled, h]
  · rcases hb : (t.legs.getD []).any (fun leg => preferred_codes.contains (legCategoryCode leg))
        with - | - <;>
      rcases hs : decide (t.status = some "CANCELLED") with - | - <;>
      (simp only [get_trip_score]; rw [hb, hs]; decide)
  · intro l hl
    unfold rankTrips pySortDesc
    exact (List.mem_insertionSort _).mpr hl

/-- Witness for C8 at the concrete candidate with no legs field and no
status field. -/
theorem C8_witness :
    (tripA.legs = none ∨ tripA.legs = some []) ∧ ¬ tripHasPreferredLeg tripA ∧
    (tripA.status = none ∨ tripA.status ≠ some "CANCELLED") ∧ ¬ tripCancelled tripA ∧
    tripA ∈ rankTrips [tripA] :=
  ⟨Or.inl rfl, (C8_malformed_graceful tripA).1 (Or.inl rfl), Or.inl rfl,
    (C8_malformed_graceful tripA).2.1 (Or.inl rfl),
    (C8_malformed_graceful tripA).2.2.2 [tripA] (by simp)⟩

/-- C9: when origin (or destination) resolution yields the unresolved
signal (`None`, or the falsy empty string), `ns_plan_trip` returns the
error message naming the original query verbatim and never issues the
trip-planning request. -/
theorem C9_unresolved_reports_query (env : PlanEnv) (origin destination : String) :
    ((resolve_station_code env.originEnv origin = none ∨
        resolve_station_code env.originEnv origin = some "") →
      ns_plan_trip env origin destination =
        (Sum.inl ("Error: Could not find station code for origin " ++
          sq ++ origin ++ sq ++ "."), false)) ∧
    (∀ oc, resolve_station_code env.originEnv origin = some oc → oc ≠ "" →
      (resolve_station_code env.destEnv destination = none ∨
        resolve_station_code env.destEnv destination = some "") →
      ns_plan_trip env origin destination =
        (Sum.inl ("Error: Could not find station code for destination " ++
          sq ++ destination ++ sq ++ "."), false)) := by
  constructor
  · rintro (h | h) <;> simp [ns_plan_trip, h]
  · rintro oc hoc hne (h | h) <;> simp [ns_plan_trip, hoc, hne, h]

/-- Witness for C9: with every remote call failing, the empty origin is
unresolved and the error names it. -/
theorem C9_witness :
    resolve_station_code planEnvFail.originEnv "" = none ∧
    ns_plan_trip planEnvFail "" "x" =
      (Sum.inl ("Error: Could not find station code for origin " ++
        sq ++ "" ++ sq ++ "."), false) :=
  ⟨rfl, (C9_unresolved_reports_query planEnvFail "" "x").1 (Or.inl rfl)⟩

end NS
